import Mathlib

/-! Single-split changepoint search (`src/binSeg.cpp`)

A shallow embedding of the cost classes `CostL2`, `RCostClass` and of
`BinarySegmentation::predict`, and of the animal classes of `src/animals.cpp`,
followed by theorems about them.

Conventions of the embedding

* `int` is embedded as `Int`.  Signed overflow is undefined in C++, so the
  embedding describes the executions in which no `int` operation overflows.
* `double` is embedded as `Val`: an exact rational, `+∞`, `-∞` or NaN.  The
  finite values are computed exactly (no rounding, no overflow to infinity);
  the comparisons and the sums involving NaN and the infinities follow IEEE 754.
* A call may leave by an exception instead of returning (`Except Fault`).  The
  source has no `throw` and no `try`: an exception can only come out of the
  host callback of `RCostClass` and then propagates through `predict`.
* `std::vector::operator[]` is unchecked.  A read outside the vector is
  undefined in the source; the embedding stops there with
  `Fault.outOfBounds`, which marks that the source gives no result.  It is
  not an error raised by the program.
-/

namespace BinSeg

/-! ## Values of type `double` -/

/-- The values of a `double` under exact arithmetic. -/
inductive Val where
  | fin (q : ℚ)
  | pinf
  | ninf
  | nan
deriving DecidableEq

namespace Val

/-- Addition of two doubles: `a + b`. -/
def add : Val → Val → Val
  | fin a, fin b => fin (a + b)
  | fin _, pinf => pinf
  | fin _, ninf => ninf
  | fin _, nan => nan
  | pinf, fin _ => pinf
  | pinf, pinf => pinf
  | pinf, ninf => nan
  | pinf, nan => nan
  | ninf, fin _ => ninf
  | ninf, pinf => nan
  | ninf, ninf => ninf
  | ninf, nan => nan
  | nan, _ => nan

/-- Subtraction of two doubles: `a - b`. -/
def sub : Val → Val → Val
  | fin a, fin b => fin (a - b)
  | fin _, pinf => ninf
  | fin _, ninf => pinf
  | fin _, nan => nan
  | pinf, fin _ => pinf
  | pinf, pinf => nan
  | pinf, ninf => pinf
  | pinf, nan => nan
  | ninf, fin _ => ninf
  | ninf, pinf => ninf
  | ninf, ninf => nan
  | ninf, nan => nan
  | nan, _ => nan

/-- Comparison of two doubles: `a < b`.  It is false as soon as one side is NaN. -/
def lt : Val → Val → Bool
  | fin a, fin b => decide (a < b)
  | fin _, pinf => true
  | ninf, fin _ => true
  | ninf, pinf => true
  | _, _ => false

end Val

/-! ## Outcomes of a call -/

/-- Ways in which a call does not return a value. -/
inductive Fault where
  /-- An exception coming out of the host (R) callback. -/
  | hostError
  /-- An unchecked vector read outside the vector: undefined in the source. -/
  | outOfBounds
deriving DecidableEq

/-! ## `CostBase` -/

/-- The interface `CostBase`: its one virtual method, `double eval(int start, int end) const`. -/
abbrev CostBase := Int → Int → Except Fault Val

/-! ## `CostL2` -/

/-- An unchecked read `v[i]` of a `std::vector<double>`, the index being an `int`. -/
def vecRead (v : List ℚ) (i : Int) : Except Fault ℚ :=
  if 0 ≤ i ∧ i < (v.length : Int) then .ok (v.getD i.toNat 0) else .error Fault.outOfBounds

/-- The two private members of `CostL2`: the cumulative sums and the cumulative sums of squares. -/
structure CostL2 where
  csum_ : List ℚ
  csum2_ : List ℚ

namespace CostL2

/-- One turn of the loop of the constructor, at index `i`:
`csum_[i + 1] = csum_[i] + x[i]; csum2_[i + 1] = csum2_[i] + x[i] * x[i];`.
The state is the pair `(csum_, csum2_)`. -/
def fillStep (x : List ℚ) (st : List ℚ × List ℚ) (i : Nat) : List ℚ × List ℚ :=
  (st.1.set (i + 1) (st.1.getD i 0 + x.getD i 0),
   st.2.set (i + 1) (st.2.getD i 0 + x.getD i 0 * x.getD i 0))

/-- The constructor `CostL2(NumericVector x)`: both vectors are resized to `n + 1`,
their first cell is set to `0.0`, and `for (int i = 0; i < n; ++i)` fills the rest. -/
def new (x : List ℚ) : CostL2 :=
  let n := x.length
  let csum0 := (List.replicate (n + 1) (0 : ℚ)).set 0 0
  let csum20 := (List.replicate (n + 1) (0 : ℚ)).set 0 0
  let st := (List.range n).foldl (fillStep x) (csum0, csum20)
  { csum_ := st.1, csum2_ := st.2 }

/-- The method `CostL2::eval`. -/
def eval (c : CostL2) (start end_ : Int) : Except Fault Val :=
  let n := end_ - start
  if n ≤ 0 then .ok (Val.fin 0)
  else
    match vecRead c.csum_ end_, vecRead c.csum_ start,
        vecRead c.csum2_ end_, vecRead c.csum2_ start with
    | .ok ce, .ok cs, .ok ce2, .ok cs2 =>
      let sum := ce - cs
      let sum2 := ce2 - cs2
      .ok (Val.fin (sum2 - (sum * sum) / (n : ℚ)))
    | _, _, _, _ => .error Fault.outOfBounds

end CostL2

/-! ## `RCostClass` -/

/-- The private member of `RCostClass`: the host function.  A call of it, followed by the
conversion `as<double>`, returns a double or leaves by an exception. -/
structure RCostClass where
  cost_fun_ : Int → Int → Except Fault Val

/-- The method `RCostClass::eval`. -/
def RCostClass.eval (c : RCostClass) (start end_ : Int) : Except Fault Val :=
  c.cost_fun_ start end_

/-! ## `BinarySegmentation` -/

/-- The private member of `BinarySegmentation`: a reference to a cost object. -/
structure BinarySegmentation where
  cost_ : CostBase

namespace BinarySegmentation

/-- The loop `for (int cp = start + 1; cp <= end - 1; ++cp)` of `predict`, entered at `cp`
with the current `minErr` and `bestCp`; it returns their final values.  The source leaves
open which of the two calls in `cost_.eval(start, cp) + cost_.eval(cp, end)` is made first;
here the left one is, which matters only for which exception leaves when both calls raise. -/
def predictLoop (cost_ : CostBase) (start end_ : Int) (cp : Int) (minErr : Val) (bestCp : Int) :
    Except Fault (Val × Int) :=
  if cp ≤ end_ - 1 then
    match cost_ start cp with
    | .error e => .error e
    | .ok l =>
      match cost_ cp end_ with
      | .error e => .error e
      | .ok r =>
        let err := l.add r
        if err.lt minErr then predictLoop cost_ start end_ (cp + 1) err cp
        else predictLoop cost_ start end_ (cp + 1) minErr bestCp
  else .ok (minErr, bestCp)
termination_by (end_ - cp).toNat
decreasing_by all_goals (simp_wf; omega)

/-- The body of `predict`: the returned `bestCp`, paired with the gain `totalErr - minErr`
that the method writes to `Rcout`. -/
def predictWithGain (b : BinarySegmentation) (start end_ : Int) : Except Fault (Int × Val) :=
  match b.cost_ start end_ with
  | .error e => .error e
  | .ok totalErr =>
    match predictLoop b.cost_ start end_ (start + 1) Val.pinf (-1) with
    | .error e => .error e
    | .ok (minErr, bestCp) => .ok (bestCp, totalErr.sub minErr)

/-- The method `BinarySegmentation::predict`: its return value. -/
def predict (b : BinarySegmentation) (start end_ : Int) : Except Fault Int :=
  match predictWithGain b start end_ with
  | .error e => .error e
  | .ok (bestCp, _) => .ok bestCp

/-- The split cost of a candidate `cp`, for a cost whose calls return `g`:
`eval(start, cp) + eval(cp, end)`. -/
def splitErr (g : Int → Int → Val) (start end_ cp : Int) : Val :=
  (g start cp).add (g cp end_)

end BinarySegmentation

/-! ## Reference quantities for the L2 cost -/

/-- Sum of the first `i` elements of `x`. -/
def prefixSum (x : List ℚ) (i : Int) : ℚ := (x.take i.toNat).sum

/-- Sum of the squares of the first `i` elements of `x`. -/
def prefixSumSq (x : List ℚ) (i : Int) : ℚ := ((x.take i.toNat).map (fun v => v * v)).sum

/-- The value of `CostL2::eval` on an interval inside `[0, n]`, written with the prefix sums
of `x` in place of the stored vectors. -/
def l2 (x : List ℚ) (start end_ : Int) : ℚ :=
  if end_ - start ≤ 0 then 0
  else (prefixSumSq x end_ - prefixSumSq x start)
    - ((prefixSum x end_ - prefixSum x start) * (prefixSum x end_ - prefixSum x start))
      / ((end_ - start : Int) : ℚ)

/-- The elements `x[start..end)` of `x`. -/
def segmentOf (x : List ℚ) (start end_ : Int) : List ℚ :=
  (x.drop start.toNat).take (end_ - start).toNat

/-- The average of a list of values. -/
def segMean (seg : List ℚ) : ℚ := seg.sum / (seg.length : ℚ)

/-- The residual sum of squares computed directly: the sum of the squared deviations of the
values from their average. -/
def rssDirect (seg : List ℚ) : ℚ := (seg.map (fun v => (v - segMean seg) ^ 2)).sum

/-! ## Concrete cost models used in the examples -/

/-- The squared length of the interval, as a rational. -/
def sqLen (s e : Int) : ℚ := (((e - s) * (e - s) : Int) : ℚ)

/-- A host function with finite values: it returns the squared length of the interval. -/
def sqLenFun : Int → Int → Except Fault Val :=
  fun s e => .ok (Val.fin (sqLen s e))

/-- A host function whose value is NaN on the interval `(2, 4)` and `1` elsewhere. -/
def nanAt24 (s e : Int) : Val := if s = 2 ∧ e = 4 then Val.nan else Val.fin 1

/-- A host function whose value is `-∞` on the interval `(2, 4)` and `1` elsewhere. -/
def ninfAt24 (s e : Int) : Val := if s = 2 ∧ e = 4 then Val.ninf else Val.fin 1

/-- A host function that returns NaN on every interval. -/
def nanFun (_s _e : Int) : Val := Val.nan

/-- A host function that returns `0` on the intervals with an end at `-1` and `1` on the
others, so that the split at `-1` is the only cheapest one. -/
def minusOneFun (s e : Int) : Val := if s = -1 ∨ e = -1 then Val.fin 0 else Val.fin 1

/-- The sequence `k * x + c`: every element of `x` multiplied by `k` and shifted by `c`. -/
def affine (k c : ℚ) (x : List ℚ) : List ℚ := x.map (fun v => k * v + c)

/-! ## The animal classes (`src/animals.cpp`) -/

/-- The protected members of the base class `Animal`; its constructor
`Animal(type, name, age)` stores its three arguments in them. -/
structure Animal where
  type_ : String
  name_ : String
  age_ : Int

namespace Animal

/-- The virtual method `Animal::type`. -/
def type (a : Animal) : String := a.type_

/-- The virtual method `Animal::name`. -/
def name (a : Animal) : String := a.name_

/-- The virtual method `Animal::age`. -/
def age (a : Animal) : Int := a.age_

end Animal

/-- The class `Duck`: an `Animal` with no member and no method of its own. -/
structure Duck extends Animal

/-- The constructor `Duck(name, age)`, which calls `Animal("duck", name, age)`. -/
def Duck.new (name : String) (age : Int) : Duck :=
  { toAnimal := Animal.mk "duck" name age }

/-- The class `Dog`: an `Animal` with no member and no method of its own. -/
structure Dog extends Animal

/-- The constructor `Dog(name, age)`, which calls `Animal("dog", name, age)`. -/
def Dog.new (name : String) (age : Int) : Dog :=
  { toAnimal := Animal.mk "dog" name age }

/-- The class `RAnimal`: an `Animal` with three host functions.  A call of one of them,
followed by the conversion `as<std::string>` or `as<int>`, returns a value or leaves by an
exception. -/
structure RAnimal extends Animal where
  type_fun_ : Unit → Except Fault String
  name_fun_ : Unit → Except Fault String
  age_fun_ : Unit → Except Fault Int

namespace RAnimal

/-- The constructor `RAnimal(type_fun, name_fun, age_fun)`, which calls `Animal("", "", 0)`. -/
def new (type_fun name_fun : Unit → Except Fault String) (age_fun : Unit → Except Fault Int) :
    RAnimal :=
  { toAnimal := Animal.mk "" "" 0, type_fun_ := type_fun, name_fun_ := name_fun,
    age_fun_ := age_fun }

/-- The override `RAnimal::type`. -/
def type (r : RAnimal) : Except Fault String := r.type_fun_ ()

/-- The override `RAnimal::name`. -/
def name (r : RAnimal) : Except Fault String := r.name_fun_ ()

/-- The override `RAnimal::age`. -/
def age (r : RAnimal) : Except Fault Int := r.age_fun_ ()

end RAnimal

/-! ## Lemmas on `Val` -/

namespace Val

theorem lt_trans_val {a b c : Val} (h1 : a.lt b = true) (h2 : b.lt c = true) : a.lt c = true := by
  cases a <;> cases b <;> cases c <;> simp_all [lt]
  exact lt_trans h1 h2

theorem lt_of_lt_of_not_lt {a b m : Val} (h1 : b.lt m = true) (h2 : a.lt m = false) :
    a = nan ∨ b.lt a = true := by
  cases a <;> cases b <;> cases m <;> simp_all [lt]
  exact lt_of_lt_of_le h1 h2

end Val

/-! ## The scan of `predict` -/

namespace BinarySegmentation

theorem predictLoop_spec (cost_ : CostBase) (start end_ : Int) (E : Int → Val)
    (hE : ∀ c, start < c → c < end_ →
      ∃ l r, cost_ start c = .ok l ∧ cost_ c end_ = .ok r ∧ E c = l.add r) :
    ∀ (k : Nat) (cp : Int) (minErr : Val) (bestCp : Int), start < cp → (end_ - cp).toNat = k →
      ∃ m b, predictLoop cost_ start end_ cp minErr bestCp = .ok (m, b) ∧
        ((m = minErr ∧ b = bestCp ∧ ∀ c, cp ≤ c → c < end_ → (E c).lt minErr = false) ∨
         (cp ≤ b ∧ b < end_ ∧ m = E b ∧ (E b).lt minErr = true ∧
           (∀ c, cp ≤ c → c < b → E c = Val.nan ∨ (E b).lt (E c) = true) ∧
           (∀ c, b < c → c < end_ → (E c).lt (E b) = false))) := by
  intro k
  induction k with
  | zero =>
    intro cp minErr bestCp _ hk
    have hge : ¬ cp ≤ end_ - 1 := by omega
    refine ⟨minErr, bestCp, ?_, Or.inl ⟨rfl, rfl, ?_⟩⟩
    · rw [predictLoop, if_neg hge]
    · intro c h1 h2; omega
  | succ k ih =>
    intro cp minErr bestCp hs hk
    have hle : cp ≤ end_ - 1 := by omega
    obtain ⟨l, r, hl, hr, hEc⟩ := hE cp hs (by omega)
    rw [predictLoop, if_pos hle]
    simp only [hl, hr]
    rw [← hEc]
    by_cases hlt : (E cp).lt minErr = true
    · rw [if_pos hlt]
      obtain ⟨m, b, hrun, hpost⟩ := ih (cp + 1) (E cp) cp (by omega) (by omega)
      refine ⟨m, b, hrun, Or.inr ?_⟩
      rcases hpost with ⟨hm, hb, hnone⟩ | ⟨h1, h2, hm, hblt, hbefore, hafter⟩
      · subst hm hb
        refine ⟨le_refl _, by omega, rfl, hlt, ?_, ?_⟩
        · intro c h1 h2; omega
        · intro c h1 h2; exact hnone c (by omega) h2
      · refine ⟨by omega, h2, hm, Val.lt_trans_val hblt hlt, ?_, hafter⟩
        intro c hc1 hc2
        rcases eq_or_lt_of_le hc1 with heq | hgt
        · subst heq; exact Or.inr hblt
        · exact hbefore c (by omega) hc2
    · rw [if_neg hlt]
      have hlt' : (E cp).lt minErr = false := by simpa using hlt
      obtain ⟨m, b, hrun, hpost⟩ := ih (cp + 1) minErr bestCp (by omega) (by omega)
      refine ⟨m, b, hrun, ?_⟩
      rcases hpost with ⟨hm, hb, hnone⟩ | ⟨h1, h2, hm, hblt, hbefore, hafter⟩
      · refine Or.inl ⟨hm, hb, ?_⟩
        intro c hc1 hc2
        rcases eq_or_lt_of_le hc1 with heq | hgt
        · subst heq; exact hlt'
        · exact hnone c (by omega) hc2
      · refine Or.inr ⟨by omega, h2, hm, hblt, ?_, hafter⟩
        intro c hc1 hc2
        rcases eq_or_lt_of_le hc1 with heq | hgt
        · subst heq; exact Val.lt_of_lt_of_not_lt hblt hlt'
        · exact hbefore c (by omega) hc2

theorem predict_of_predictWithGain {b : BinarySegmentation} {start end_ r : Int} {g : Val}
    (h : b.predictWithGain start end_ = .ok (r, g)) : b.predict start end_ = .ok r := by
  simp [predict, h]

theorem predictWithGain_finite (b : BinarySegmentation) (f : Int → Int → ℚ) (start end_ : Int)
    (htot : b.cost_ start end_ = .ok (Val.fin (f start end_)))
    (hcand : ∀ c, start < c → c < end_ →
      b.cost_ start c = .ok (Val.fin (f start c)) ∧ b.cost_ c end_ = .ok (Val.fin (f c end_)))
    (h : 2 ≤ end_ - start) :
    ∃ r, b.predictWithGain start end_
          = .ok (r, Val.fin (f start end_ - (f start r + f r end_))) ∧
      start < r ∧ r < end_ ∧
      (∀ cp, start < cp → cp < end_ → f start r + f r end_ ≤ f start cp + f cp end_) ∧
      (∀ cp, start < cp → cp < r → f start r + f r end_ < f start cp + f cp end_) := by
  have hE : ∀ c, start < c → c < end_ →
      ∃ l r, b.cost_ start c = .ok l ∧ b.cost_ c end_ = .ok r ∧
        Val.fin (f start c + f c end_) = l.add r := by
    intro c h1 h2
    exact ⟨_, _, (hcand c h1 h2).1, (hcand c h1 h2).2, rfl⟩
  obtain ⟨m, r, hrun, hpost⟩ := predictLoop_spec b.cost_ start end_
    (fun c => Val.fin (f start c + f c end_)) hE _ (start + 1) Val.pinf (-1) (by omega) rfl
  rcases hpost with ⟨_, _, hnone⟩ | ⟨h1, h2, hm, _, hbefore, hafter⟩
  · have := hnone (start + 1) (le_refl _) (by omega)
    simp [Val.lt] at this
  · have hlow : ∀ cp, start < cp → cp < r → f start r + f r end_ < f start cp + f cp end_ := by
      intro cp hc1 hc2
      rcases hbefore cp (by omega) hc2 with hnan | hlt
      · simp at hnan
      · simpa [Val.lt] using hlt
    refine ⟨r, ?_, by omega, h2, ?_, hlow⟩
    · simp only [predictWithGain, htot, hrun, hm, Val.sub]
    · intro cp hc1 hc2
      rcases lt_trichotomy cp r with hlt | heq | hgt
      · exact le_of_lt (hlow cp hc1 hlt)
      · subst heq; exact le_refl _
      · simpa [Val.lt] using hafter cp hgt hc2

theorem predictWithGain_short (b : BinarySegmentation) (start end_ : Int) (totalErr : Val)
    (htot : b.cost_ start end_ = .ok totalErr) (h : end_ - start < 2) :
    b.predictWithGain start end_ = .ok (-1, totalErr.sub Val.pinf) := by
  have hge : ¬ start + 1 ≤ end_ - 1 := by omega
  simp only [predictWithGain, htot]
  rw [predictLoop, if_neg hge]

end BinarySegmentation

/-! ## The constructor and `eval` of `CostL2` -/

namespace CostL2

theorem sum_take_succ_getD (x : List ℚ) (k : Nat) (hk : k < x.length) :
    (x.take (k + 1)).sum = (x.take k).sum + x.getD k 0 := by
  rw [List.take_succ, List.sum_append, List.getElem?_eq_getElem hk, List.getD_eq_getElem x 0 hk]
  simp

theorem sum_sq_take_succ_getD (x : List ℚ) (k : Nat) (hk : k < x.length) :
    ((x.take (k + 1)).map (fun v => v * v)).sum
      = ((x.take k).map (fun v => v * v)).sum + x.getD k 0 * x.getD k 0 := by
  rw [List.take_succ, List.map_append, List.sum_append, List.getElem?_eq_getElem hk,
    List.getD_eq_getElem x 0 hk]
  simp

theorem getD_set_self (l : List ℚ) (i : Nat) (v : ℚ) (h : i < l.length) :
    (l.set i v).getD i 0 = v := by
  simp [List.getElem?_set, h]

theorem getD_set_other (l : List ℚ) (i j : Nat) (v : ℚ) (h : i ≠ j) :
    (l.set i v).getD j 0 = l.getD j 0 := by
  simp [List.getElem?_set, h]

theorem fill_invariant (x : List ℚ) (k : Nat) (hk : k ≤ x.length) :
    ((List.range k).foldl (fillStep x)
        ((List.replicate (x.length + 1) (0 : ℚ)).set 0 0,
         (List.replicate (x.length + 1) (0 : ℚ)).set 0 0)).1.length = x.length + 1 ∧
    ((List.range k).foldl (fillStep x)
        ((List.replicate (x.length + 1) (0 : ℚ)).set 0 0,
         (List.replicate (x.length + 1) (0 : ℚ)).set 0 0)).2.length = x.length + 1 ∧
    ∀ j, j ≤ k →
      ((List.range k).foldl (fillStep x)
        ((List.replicate (x.length + 1) (0 : ℚ)).set 0 0,
         (List.replicate (x.length + 1) (0 : ℚ)).set 0 0)).1.getD j 0 = (x.take j).sum ∧
      ((List.range k).foldl (fillStep x)
        ((List.replicate (x.length + 1) (0 : ℚ)).set 0 0,
         (List.replicate (x.length + 1) (0 : ℚ)).set 0 0)).2.getD j 0
          = ((x.take j).map (fun v => v * v)).sum := by
  induction k with
  | zero =>
    refine ⟨by simp, by simp, ?_⟩
    intro j hj
    have : j = 0 := by omega
    subst this
    simp
  | succ k ih =>
    obtain ⟨hl1, hl2, hval⟩ := ih (by omega)
    rw [List.range_succ, List.foldl_append]
    simp only [List.foldl_cons, List.foldl_nil, fillStep]
    refine ⟨by simpa using hl1, by simpa using hl2, ?_⟩
    intro j hj
    rcases Nat.lt_or_ge j (k + 1) with hlt | hge
    · rw [getD_set_other _ _ _ _ (by omega), getD_set_other _ _ _ _ (by omega)]
      exact hval j (by omega)
    · have hjk : j = k + 1 := by omega
      subst hjk
      rw [getD_set_self _ _ _ (by omega), getD_set_self _ _ _ (by omega),
        (hval k (le_refl _)).1, (hval k (le_refl _)).2,
        sum_take_succ_getD x k (by omega), sum_sq_take_succ_getD x k (by omega)]
      exact ⟨rfl, rfl⟩

theorem new_csum_length (x : List ℚ) : (new x).csum_.length = x.length + 1 :=
  (fill_invariant x x.length (le_refl _)).1

theorem new_csum2_length (x : List ℚ) : (new x).csum2_.length = x.length + 1 :=
  (fill_invariant x x.length (le_refl _)).2.1

theorem new_csum_getD (x : List ℚ) (j : Nat) (hj : j ≤ x.length) :
    (new x).csum_.getD j 0 = (x.take j).sum :=
  ((fill_invariant x x.length (le_refl _)).2.2 j hj).1

theorem new_csum2_getD (x : List ℚ) (j : Nat) (hj : j ≤ x.length) :
    (new x).csum2_.getD j 0 = ((x.take j).map (fun v => v * v)).sum :=
  ((fill_invariant x x.length (le_refl _)).2.2 j hj).2

theorem vecRead_new_csum (x : List ℚ) (i : Int) (h0 : 0 ≤ i) (hn : i ≤ (x.length : Int)) :
    vecRead (new x).csum_ i = .ok (prefixSum x i) := by
  have hlt : 0 ≤ i ∧ i < ((new x).csum_.length : Int) := by
    rw [new_csum_length]; constructor <;> omega
  rw [vecRead, if_pos hlt, new_csum_getD x i.toNat (by omega)]
  rfl

theorem vecRead_new_csum2 (x : List ℚ) (i : Int) (h0 : 0 ≤ i) (hn : i ≤ (x.length : Int)) :
    vecRead (new x).csum2_ i = .ok (prefixSumSq x i) := by
  have hlt : 0 ≤ i ∧ i < ((new x).csum2_.length : Int) := by
    rw [new_csum2_length]; constructor <;> omega
  rw [vecRead, if_pos hlt, new_csum2_getD x i.toNat (by omega)]
  rfl

theorem eval_nonpos (c : CostL2) (start end_ : Int) (h : end_ ≤ start) :
    c.eval start end_ = .ok (Val.fin 0) := by
  have hn : end_ - start ≤ 0 := by omega
  simp [eval, hn]

theorem eval_new_in_range (x : List ℚ) (start end_ : Int) (h0 : 0 ≤ start) (hse : start ≤ end_)
    (hn : end_ ≤ (x.length : Int)) :
    (new x).eval start end_ = .ok (Val.fin (l2 x start end_)) := by
  by_cases hlen : end_ - start ≤ 0
  · rw [eval_nonpos _ _ _ (by omega), l2, if_pos hlen]
  · simp only [eval, if_neg hlen, l2,
      vecRead_new_csum x end_ (by omega) hn, vecRead_new_csum x start h0 (by omega),
      vecRead_new_csum2 x end_ (by omega) hn, vecRead_new_csum2 x start h0 (by omega)]

theorem prefixSum_sub (x : List ℚ) (start end_ : Int) (h0 : 0 ≤ start) (hse : start ≤ end_) :
    prefixSum x end_ - prefixSum x start = (segmentOf x start end_).sum := by
  have he : end_.toNat = start.toNat + (end_ - start).toNat := by omega
  rw [prefixSum, prefixSum, segmentOf, he, List.take_add, List.sum_append]
  ring

theorem prefixSumSq_sub (x : List ℚ) (start end_ : Int) (h0 : 0 ≤ start) (hse : start ≤ end_) :
    prefixSumSq x end_ - prefixSumSq x start = ((segmentOf x start end_).map (fun v => v * v)).sum := by
  have he : end_.toNat = start.toNat + (end_ - start).toNat := by omega
  rw [prefixSumSq, prefixSumSq, segmentOf, he, List.take_add, List.map_append, List.sum_append]
  ring

theorem segmentOf_length (x : List ℚ) (start end_ : Int) (h0 : 0 ≤ start)
    (hn : end_ ≤ (x.length : Int)) : (segmentOf x start end_).length = (end_ - start).toNat := by
  rw [segmentOf, List.length_take, List.length_drop]
  omega

theorem sum_sq_dev (seg : List ℚ) (μ : ℚ) :
    (seg.map (fun v => (v - μ) ^ 2)).sum
      = (seg.map (fun v => v * v)).sum - 2 * μ * seg.sum + (seg.length : ℚ) * μ ^ 2 := by
  induction seg with
  | nil => simp
  | cons a t ih =>
    simp only [List.map_cons, List.sum_cons, List.length_cons, ih]
    push_cast
    ring

theorem rssDirect_eq (seg : List ℚ) (h : 0 < seg.length) :
    rssDirect seg = (seg.map (fun v => v * v)).sum - (seg.sum * seg.sum) / (seg.length : ℚ) := by
  have hpos : (0 : ℚ) < (seg.length : ℚ) := by exact_mod_cast h
  rw [rssDirect, sum_sq_dev, segMean]
  field_simp
  ring

theorem l2_eq_rssDirect (x : List ℚ) (start end_ : Int) (h0 : 0 ≤ start) (hse : start < end_)
    (hn : end_ ≤ (x.length : Int)) : l2 x start end_ = rssDirect (segmentOf x start end_) := by
  have hlen := segmentOf_length x start end_ h0 hn
  have hcast : ((segmentOf x start end_).length : ℚ) = ((end_ - start : Int) : ℚ) := by
    rw [hlen]
    have : (((end_ - start).toNat : Int)) = end_ - start := Int.toNat_of_nonneg (by omega)
    exact_mod_cast this
  rw [rssDirect_eq _ (by omega), l2, if_neg (by omega), prefixSum_sub x start end_ h0 (le_of_lt hse),
    prefixSumSq_sub x start end_ h0 (le_of_lt hse), hcast]

end CostL2

/-! ## The single-split search over a finite cost -/

/-- C4: when `end - start < 2` and the call `eval(start, end)` returns, `predict` returns the
sentinel `-1`: the scan ends at once with `minErr = +∞` and `bestCp = -1`.  Nothing is
assumed of the cost model at any other pair of arguments, so no candidate is evaluated. -/
theorem predict_short_interval (b : BinarySegmentation) (start end_ : Int) (totalErr : Val)
    (htot : b.cost_ start end_ = .ok totalErr) (h : end_ - start < 2) :
    b.predict start end_ = .ok (-1) ∧
    b.predictWithGain start end_ = .ok (-1, totalErr.sub Val.pinf) ∧
    BinarySegmentation.predictLoop b.cost_ start end_ (start + 1) Val.pinf (-1)
      = .ok (Val.pinf, -1) := by
  have hrun := BinarySegmentation.predictWithGain_short b start end_ totalErr htot h
  refine ⟨BinarySegmentation.predict_of_predictWithGain hrun, hrun, ?_⟩
  rw [BinarySegmentation.predictLoop, if_neg (by omega)]

/-- Instance of C4: the squared-length host cost on the interval `(3, 4)`. -/
theorem predict_short_interval_witness :
    (4 : Int) - 3 < 2 ∧
    (BinarySegmentation.mk (RCostClass.mk sqLenFun).eval).predict 3 4 = .ok (-1) :=
  ⟨by decide,
   (predict_short_interval (BinarySegmentation.mk (RCostClass.mk sqLenFun).eval) 3 4
    (Val.fin (sqLen 3 4)) rfl (by decide)).1⟩

/-! ## The L2 cost -/

/-- C2: for a sequence `x` of length `n ≥ 1` and `0 ≤ start < end ≤ n`, `CostL2(x).eval(start, end)`
is the residual sum of squares of the segment `x[start..end)` computed directly, the sum of
`(x[i] - mean)^2` over the segment; in particular `eval(0, n)` is that of the whole of `x`. -/
theorem eval_eq_residual_sum_of_squares (x : List ℚ) (hn : 1 ≤ x.length) :
    (∀ start end_ : Int, 0 ≤ start → start < end_ → end_ ≤ (x.length : Int) →
      (CostL2.new x).eval start end_ = .ok (Val.fin (rssDirect (segmentOf x start end_)))) ∧
    (CostL2.new x).eval 0 (x.length : Int) = .ok (Val.fin (rssDirect x)) := by
  have hseg : ∀ start end_ : Int, 0 ≤ start → start < end_ → end_ ≤ (x.length : Int) →
      (CostL2.new x).eval start end_ = .ok (Val.fin (rssDirect (segmentOf x start end_))) := by
    intro start end_ h0 hse he
    rw [CostL2.eval_new_in_range x start end_ h0 (le_of_lt hse) he,
      CostL2.l2_eq_rssDirect x start end_ h0 hse he]
  refine ⟨hseg, ?_⟩
  have hwhole : segmentOf x 0 (x.length : Int) = x := by simp [segmentOf]
  have := hseg 0 (x.length : Int) (le_refl _) (by omega) (le_refl _)
  rwa [hwhole] at this

/-- Instance of C2: the sequence `[2, 4, 4, 6]`, whose residual sum of squares is `8`. -/
theorem eval_eq_residual_sum_of_squares_witness :
    1 ≤ ([2, 4, 4, 6] : List ℚ).length ∧
    rssDirect [2, 4, 4, 6] = 8 ∧
    (CostL2.new [2, 4, 4, 6]).eval 0 (([2, 4, 4, 6] : List ℚ).length : Int)
      = .ok (Val.fin (rssDirect [2, 4, 4, 6])) :=
  ⟨by decide, by simp [rssDirect, segMean]; norm_num,
   (eval_eq_residual_sum_of_squares [2, 4, 4, 6] (by decide)).2⟩

/-- C7: for every sequence `x` of length `n` and every index `i` with `0 ≤ i ≤ n`,
`CostL2(x).eval(i, i)` is exactly `0`. -/
theorem eval_same_index (x : List ℚ) (i : Int) (_h0 : 0 ≤ i) (_hn : i ≤ (x.length : Int)) :
    (CostL2.new x).eval i i = .ok (Val.fin 0) :=
  CostL2.eval_nonpos (CostL2.new x) i i (le_refl _)

/-- Instance of C7: the sequence `[1, 2, 3]` at its last valid index `3`. -/
theorem eval_same_index_witness :
    (0 : Int) ≤ 3 ∧ (3 : Int) ≤ (([1, 2, 3] : List ℚ).length : Int) ∧
    (CostL2.new [1, 2, 3]).eval 3 3 = .ok (Val.fin 0) :=
  ⟨by decide, by decide, eval_same_index [1, 2, 3] 3 (by decide) (by decide)⟩

/-! ## Intervals that are not valid -/

theorem sq_div_add_le (A B n1 n2 : ℚ) (h1 : 0 < n1) (h2 : 0 < n2) :
    (A + B) * (A + B) / (n1 + n2) ≤ A * A / n1 + B * B / n2 := by
  rw [div_add_div _ _ (ne_of_gt h1) (ne_of_gt h2), div_le_div_iff₀ (by positivity) (by positivity)]
  nlinarith [sq_nonneg (n2 * A - n1 * B)]

theorem l2_same (x : List ℚ) (i : Int) : l2 x i i = 0 := by
  simp [l2]

theorem l2_superadditive (x : List ℚ) (start cp end_ : Int) (h1 : start ≤ cp) (h2 : cp ≤ end_) :
    l2 x start cp + l2 x cp end_ ≤ l2 x start end_ := by
  rcases eq_or_lt_of_le h1 with heq | hlt1
  · subst heq; simp [l2_same]
  rcases eq_or_lt_of_le h2 with heq | hlt2
  · subst heq; simp [l2_same]
  have hn1 : (0 : ℚ) < ((cp - start : Int) : ℚ) := by exact_mod_cast (by omega : 0 < cp - start)
  have hn2 : (0 : ℚ) < ((end_ - cp : Int) : ℚ) := by exact_mod_cast (by omega : 0 < end_ - cp)
  have hsum : ((end_ - start : Int) : ℚ) = ((cp - start : Int) : ℚ) + ((end_ - cp : Int) : ℚ) := by
    push_cast; ring
  have key := sq_div_add_le (prefixSum x cp - prefixSum x start)
    (prefixSum x end_ - prefixSum x cp) _ _ hn1 hn2
  rw [l2, l2, l2, if_neg (by omega), if_neg (by omega), if_neg (by omega), hsum]
  have hAB : prefixSum x end_ - prefixSum x start
      = (prefixSum x cp - prefixSum x start) + (prefixSum x end_ - prefixSum x cp) := by ring
  rw [hAB]
  linarith

/-- C9: for a sequence `x` of length `n` and `0 ≤ start`, `end ≤ n`, `end - start ≥ 2`,
`predict` over `CostL2(x)` returns an interior `r`, and the gain
`eval(start, end) - (eval(start, r) + eval(r, end))` it prints is `≥ 0`; moreover the L2 cost
is super-additive: `eval(start, end) ≥ eval(start, cp) + eval(cp, end)` for every
`start ≤ cp ≤ end`. -/
theorem predict_l2_gain_nonneg (x : List ℚ) (start end_ : Int) (h0 : 0 ≤ start)
    (hn : end_ ≤ (x.length : Int)) (h : end_ - start ≥ 2) :
    (∃ r t l u, (BinarySegmentation.mk (CostL2.new x).eval).predictWithGain start end_
          = .ok (r, Val.fin (t - (l + u))) ∧
        (BinarySegmentation.mk (CostL2.new x).eval).predict start end_ = .ok r ∧
        start < r ∧ r < end_ ∧
        (CostL2.new x).eval start end_ = .ok (Val.fin t) ∧
        (CostL2.new x).eval start r = .ok (Val.fin l) ∧
        (CostL2.new x).eval r end_ = .ok (Val.fin u) ∧
        t - (l + u) ≥ 0) ∧
    (∀ cp, start ≤ cp → cp ≤ end_ →
      ∃ t l u, (CostL2.new x).eval start end_ = .ok (Val.fin t) ∧
        (CostL2.new x).eval start cp = .ok (Val.fin l) ∧
        (CostL2.new x).eval cp end_ = .ok (Val.fin u) ∧
        t ≥ l + u) := by
  have hev : ∀ s e, start ≤ s → s ≤ e → e ≤ end_ →
      (CostL2.new x).eval s e = .ok (Val.fin (l2 x s e)) :=
    fun s e h1 h2 h3 => CostL2.eval_new_in_range x s e (by omega) h2 (by omega)
  constructor
  · obtain ⟨r, hrun, h1, h2, _, _⟩ := BinarySegmentation.predictWithGain_finite
      (BinarySegmentation.mk (CostL2.new x).eval) (l2 x) start end_
      (hev start end_ (le_refl _) (by omega) (le_refl _))
      (fun c hc1 hc2 => ⟨hev start c (le_refl _) (by omega) (by omega),
        hev c end_ (by omega) (by omega) (le_refl _)⟩) h
    refine ⟨r, l2 x start end_, l2 x start r, l2 x r end_, hrun,
      BinarySegmentation.predict_of_predictWithGain hrun, h1, h2,
      hev start end_ (le_refl _) (by omega) (le_refl _),
      hev start r (le_refl _) (by omega) (by omega),
      hev r end_ (by omega) (by omega) (le_refl _), ?_⟩
    have := l2_superadditive x start r end_ (by omega) (by omega)
    linarith
  · intro cp hc1 hc2
    exact ⟨l2 x start end_, l2 x start cp, l2 x cp end_,
      hev start end_ (le_refl _) (by omega) (le_refl _),
      hev start cp (le_refl _) hc1 hc2,
      hev cp end_ hc1 hc2 (le_refl _),
      l2_superadditive x start cp end_ hc1 hc2⟩

/-- Instance of C9: `x = [1, 2, 3, 4, 5]` on the interval `(0, 5)`: the changepoint is `2`
and the gain is `10 - 5/2 = 15/2`. -/
theorem predict_l2_gain_nonneg_witness :
    (BinarySegmentation.mk (CostL2.new [1, 2, 3, 4, 5]).eval).predictWithGain 0 5
      = .ok (2, Val.fin (15 / 2)) ∧
    ∃ r t l u, (BinarySegmentation.mk (CostL2.new [1, 2, 3, 4, 5]).eval).predictWithGain 0 5
          = .ok (r, Val.fin (t - (l + u))) ∧
        (BinarySegmentation.mk (CostL2.new [1, 2, 3, 4, 5]).eval).predict 0 5 = .ok r ∧
        0 < r ∧ r < 5 ∧
        (CostL2.new [1, 2, 3, 4, 5]).eval 0 5 = .ok (Val.fin t) ∧
        (CostL2.new [1, 2, 3, 4, 5]).eval 0 r = .ok (Val.fin l) ∧
        (CostL2.new [1, 2, 3, 4, 5]).eval r 5 = .ok (Val.fin u) ∧
        t - (l + u) ≥ 0 := by
  refine ⟨?_, (predict_l2_gain_nonneg [1, 2, 3, 4, 5] 0 5 (by decide) (by decide) (by decide)).1⟩
  simp [BinarySegmentation.predictWithGain,
    BinarySegmentation.predictLoop, CostL2.new, CostL2.eval, CostL2.fillStep, vecRead,
    List.range, List.range.loop, Val.add, Val.lt, Val.sub]
  norm_num

/-! ## Cost models with values that are not finite -/

theorem predict_total_cost (b : BinarySegmentation) (g : Int → Int → Val)
    (hb : ∀ s e, b.cost_ s e = .ok (g s e)) (start end_ : Int) :
    ∃ r, b.predict start end_ = .ok r ∧
      (r = -1 ∨ (start < r ∧ r < end_ ∧
        (BinarySegmentation.splitErr g start end_ r).lt Val.pinf = true)) := by
  obtain ⟨m, r, hrun, hpost⟩ := BinarySegmentation.predictLoop_spec b.cost_ start end_
    (BinarySegmentation.splitErr g start end_)
    (fun c _ _ => ⟨g start c, g c end_, hb start c, hb c end_, rfl⟩)
    _ (start + 1) Val.pinf (-1) (by omega) rfl
  refine ⟨r, ?_, ?_⟩
  · simp [BinarySegmentation.predict, BinarySegmentation.predictWithGain, hb start end_, hrun]
  · rcases hpost with ⟨_, hr, _⟩ | ⟨h1, h2, _, hlt, _, _⟩
    · exact Or.inl hr
    · exact Or.inr ⟨by omega, h2, hlt⟩

/-- C10, refuted as stated: with a host function that returns NaN on `(2, 4)`, `predict(2, 6)`,
whose candidates are `3`, `4` and `5`, returns `3` and raises nothing; and with a host
function that returns `-∞` on `(2, 4)`, that value takes part in the comparison and
`predict(2, 6)` selects `4`. -/
theorem predict_nan_cost_returns :
    nanAt24 2 4 = Val.nan ∧
    (BinarySegmentation.mk (RCostClass.mk (fun s e => .ok (nanAt24 s e))).eval).predict 2 6
      = .ok 3 ∧
    (¬ ∃ e, (BinarySegmentation.mk (RCostClass.mk (fun s e => .ok (nanAt24 s e))).eval).predict
      2 6 = .error e) ∧
    (BinarySegmentation.mk (RCostClass.mk (fun s e => .ok (ninfAt24 s e))).eval).predict 2 6
      = .ok 4 := by
  have h3 : (BinarySegmentation.mk (RCostClass.mk (fun s e => .ok (nanAt24 s e))).eval).predict
      2 6 = .ok 3 := by
    simp [BinarySegmentation.predict, BinarySegmentation.predictWithGain,
      BinarySegmentation.predictLoop, RCostClass.eval, nanAt24, Val.add, Val.lt]
  refine ⟨by simp [nanAt24], h3, ?_, ?_⟩
  · rintro ⟨e, he⟩
    rw [h3] at he
    cases he
  · simp [BinarySegmentation.predict, BinarySegmentation.predictWithGain,
      BinarySegmentation.predictLoop, RCostClass.eval, ninfAt24, Val.add, Val.lt]

/-- C10, amended: when the host function returns normally and its value on `(2, 4)` is NaN,
`predict(2, end)` returns normally, for every `end`, and the index it returns is not `4`:
the split cost of the candidate `4` is NaN, for which the comparison `err < minErr` is
false. -/
theorem predict_nan_candidate_not_selected (g : Int → Int → Val) (hnan : g 2 4 = Val.nan)
    (end_ : Int) :
    ∃ r, (BinarySegmentation.mk (RCostClass.mk (fun s e => .ok (g s e))).eval).predict 2 end_
        = .ok r ∧ r ≠ 4 := by
  obtain ⟨r, hrun, hr⟩ := predict_total_cost
    (BinarySegmentation.mk (RCostClass.mk (fun s e => .ok (g s e))).eval) g
    (fun _ _ => rfl) 2 end_
  refine ⟨r, hrun, ?_⟩
  rcases hr with hr | ⟨_, _, hlt⟩
  · omega
  · intro h4
    subst h4
    simp [BinarySegmentation.splitErr, hnan, Val.add, Val.lt] at hlt

/-- Instance of amended C10: the host function `nanAt24` on the interval `(2, 6)`. -/
theorem predict_nan_candidate_not_selected_witness :
    nanAt24 2 4 = Val.nan ∧
    ∃ r, (BinarySegmentation.mk (RCostClass.mk (fun s e => .ok (nanAt24 s e))).eval).predict 2 6
        = .ok r ∧ r ≠ 4 :=
  ⟨by simp [nanAt24], predict_nan_candidate_not_selected nanAt24 (by simp [nanAt24]) 6⟩

/-! ## A sequence with one step -/

theorem prefixSum_step_left (p q : Nat) (a b : ℚ) (i : Int) (h0 : 0 ≤ i) (hi : i ≤ (p : Int)) :
    prefixSum (List.replicate p a ++ List.replicate q b) i = (i : ℚ) * a := by
  have hle : i.toNat ≤ (List.replicate p a).length := by simp; omega
  have hmin : min i.toNat p = i.toNat := by omega
  have hcast : ((i.toNat : Int)) = i := Int.toNat_of_nonneg h0
  rw [prefixSum, List.take_append_of_le_length hle, List.take_replicate, hmin,
    List.sum_replicate, nsmul_eq_mul]
  congr 1
  exact_mod_cast hcast

theorem prefixSumSq_step_left (p q : Nat) (a b : ℚ) (i : Int) (h0 : 0 ≤ i) (hi : i ≤ (p : Int)) :
    prefixSumSq (List.replicate p a ++ List.replicate q b) i = (i : ℚ) * (a * a) := by
  have hle : i.toNat ≤ (List.replicate p a).length := by simp; omega
  have hmin : min i.toNat p = i.toNat := by omega
  have hcast : ((i.toNat : Int)) = i := Int.toNat_of_nonneg h0
  rw [prefixSumSq, List.take_append_of_le_length hle, List.take_replicate, hmin,
    List.map_replicate, List.sum_replicate, nsmul_eq_mul]
  congr 1
  exact_mod_cast hcast

theorem prefixSum_step_right (p q : Nat) (a b : ℚ) (i : Int) (h0 : (p : Int) ≤ i)
    (hi : i ≤ (p : Int) + q) :
    prefixSum (List.replicate p a ++ List.replicate q b) i
      = (p : ℚ) * a + ((i : ℚ) - p) * b := by
  have hmin1 : min i.toNat p = p := by omega
  have hmin2 : min (i.toNat - p) q = i.toNat - p := by omega
  have hcast : ((i.toNat - p : Nat) : ℚ) = (i : ℚ) - p := by
    have h1 : (((i.toNat - p : Nat)) : Int) = i - p := by omega
    exact_mod_cast h1
  rw [prefixSum, List.take_append_eq_append_take, List.take_replicate, List.take_replicate,
    List.length_replicate, hmin1, hmin2, List.sum_append, List.sum_replicate,
    List.sum_replicate, nsmul_eq_mul, nsmul_eq_mul, hcast]

theorem prefixSumSq_step_right (p q : Nat) (a b : ℚ) (i : Int) (h0 : (p : Int) ≤ i)
    (hi : i ≤ (p : Int) + q) :
    prefixSumSq (List.replicate p a ++ List.replicate q b) i
      = (p : ℚ) * (a * a) + ((i : ℚ) - p) * (b * b) := by
  have hmin1 : min i.toNat p = p := by omega
  have hmin2 : min (i.toNat - p) q = i.toNat - p := by omega
  have hcast : ((i.toNat - p : Nat) : ℚ) = (i : ℚ) - p := by
    have h1 : (((i.toNat - p : Nat)) : Int) = i - p := by omega
    exact_mod_cast h1
  rw [prefixSumSq, List.take_append_eq_append_take, List.take_replicate, List.take_replicate,
    List.length_replicate, hmin1, hmin2, List.map_append, List.map_replicate,
    List.map_replicate, List.sum_append, List.sum_replicate,
    List.sum_replicate, nsmul_eq_mul, nsmul_eq_mul, hcast]

theorem l2_step_left (p q : Nat) (a b : ℚ) (s e : Int) (h0 : 0 ≤ s) (he : e ≤ (p : Int)) :
    l2 (List.replicate p a ++ List.replicate q b) s e = 0 := by
  by_cases hlen : e - s ≤ 0
  · rw [l2, if_pos hlen]
  · have hpos : ((e - s : Int) : ℚ) ≠ 0 := by
      have : e - s ≠ 0 := by omega
      exact_mod_cast this
    rw [l2, if_neg hlen, prefixSum_step_left p q a b e (by omega) he,
      prefixSum_step_left p q a b s h0 (by omega),
      prefixSumSq_step_left p q a b e (by omega) he,
      prefixSumSq_step_left p q a b s h0 (by omega)]
    push_cast at hpos ⊢
    field_simp
    ring

theorem l2_step_right (p q : Nat) (a b : ℚ) (s e : Int) (h0 : (p : Int) ≤ s)
    (he : e ≤ (p : Int) + q) :
    l2 (List.replicate p a ++ List.replicate q b) s e = 0 := by
  by_cases hlen : e - s ≤ 0
  · rw [l2, if_pos hlen]
  · have hpos : ((e - s : Int) : ℚ) ≠ 0 := by
      have : e - s ≠ 0 := by omega
      exact_mod_cast this
    rw [l2, if_neg hlen, prefixSum_step_right p q a b e (by omega) he,
      prefixSum_step_right p q a b s h0 (by omega),
      prefixSumSq_step_right p q a b e (by omega) he,
      prefixSumSq_step_right p q a b s h0 (by omega)]
    push_cast at hpos ⊢
    field_simp
    ring

theorem l2_step_cross (p q : Nat) (a b : ℚ) (s : Int) (h0 : 0 ≤ s) (hs : s < (p : Int))
    (hq : 1 ≤ q) (hab : a ≠ b) :
    0 < l2 (List.replicate p a ++ List.replicate q b) s ((p : Int) + q) := by
  have hm : (0 : ℚ) < (p : ℚ) - (s : ℚ) := by
    have : (s : ℚ) < (p : ℚ) := by exact_mod_cast hs
    linarith
  have hq0 : (0 : ℚ) < (q : ℚ) := by exact_mod_cast hq
  have hsq : 0 < (a - b) ^ 2 := by
    have : a - b ≠ 0 := sub_ne_zero.mpr hab
    positivity
  have hval : l2 (List.replicate p a ++ List.replicate q b) s ((p : Int) + q)
      = ((p : ℚ) - s) * q * (a - b) ^ 2 / (((p : ℚ) - s) + q) := by
    have hden : ((p : ℚ) - s) + q ≠ 0 := by positivity
    have hden2 : (p : ℚ) + q - s ≠ 0 := by
      have : (p : ℚ) + q - s = ((p : ℚ) - s) + q := by ring
      rw [this]; exact hden
    rw [l2, if_neg (by omega), prefixSum_step_right p q a b _ (by omega) (le_refl _),
      prefixSum_step_left p q a b s h0 (by omega),
      prefixSumSq_step_right p q a b _ (by omega) (le_refl _),
      prefixSumSq_step_left p q a b s h0 (by omega)]
    push_cast
    field_simp
    ring
  rw [hval]
  positivity

theorem l2_nonneg (x : List ℚ) (s e : Int) (h0 : 0 ≤ s) (hn : e ≤ (x.length : Int)) :
    0 ≤ l2 x s e := by
  by_cases hlen : e - s ≤ 0
  · rw [l2, if_pos hlen]
  · rw [CostL2.l2_eq_rssDirect x s e h0 (by omega) hn, rssDirect]
    apply List.sum_nonneg
    intro y hy
    obtain ⟨v, _, rfl⟩ := List.mem_map.mp hy
    positivity

/-- C8: for a sequence `x` made of `p ≥ 1` copies of `a` followed by `q ≥ 1` copies of `b`,
with `a ≠ b`, `predict` over `CostL2(x)` on `(0, p + q)` returns the changepoint `p`; both
halves of the split there cost `0`, and the printed gain, `eval(0, p + q)` minus the split
cost, is strictly positive. -/
theorem predict_step_sequence (p q : Nat) (a b : ℚ) (hp : 1 ≤ p) (hq : 1 ≤ q) (hab : a ≠ b) :
    ∃ gain : ℚ,
      (BinarySegmentation.mk (CostL2.new (List.replicate p a ++ List.replicate q b)).eval).predict
        0 ((p : Int) + q) = .ok (p : Int) ∧
      (BinarySegmentation.mk
        (CostL2.new (List.replicate p a ++ List.replicate q b)).eval).predictWithGain
        0 ((p : Int) + q) = .ok ((p : Int), Val.fin gain) ∧
      (CostL2.new (List.replicate p a ++ List.replicate q b)).eval 0 p = .ok (Val.fin 0) ∧
      (CostL2.new (List.replicate p a ++ List.replicate q b)).eval p ((p : Int) + q)
        = .ok (Val.fin 0) ∧
      (CostL2.new (List.replicate p a ++ List.replicate q b)).eval 0 ((p : Int) + q)
        = .ok (Val.fin gain) ∧
      0 < gain := by
  have hlen : (((List.replicate p a ++ List.replicate q b).length : Nat) : Int)
      = (p : Int) + q := by simp
  have hev : ∀ s e : Int, 0 ≤ s → s ≤ e → e ≤ (p : Int) + q →
      (CostL2.new (List.replicate p a ++ List.replicate q b)).eval s e
        = .ok (Val.fin (l2 (List.replicate p a ++ List.replicate q b) s e)) :=
    fun s e h1 h2 h3 => CostL2.eval_new_in_range _ s e h1 h2 (by rw [hlen]; exact h3)
  have hL : l2 (List.replicate p a ++ List.replicate q b) 0 p = 0 :=
    l2_step_left p q a b 0 p (le_refl _) (le_refl _)
  have hR : l2 (List.replicate p a ++ List.replicate q b) p ((p : Int) + q) = 0 :=
    l2_step_right p q a b p _ (le_refl _) (le_refl _)
  have hT : 0 < l2 (List.replicate p a ++ List.replicate q b) 0 ((p : Int) + q) :=
    l2_step_cross p q a b 0 (le_refl _) (by omega) hq hab
  obtain ⟨r, hrun, h1, h2, hmin, hlow⟩ := BinarySegmentation.predictWithGain_finite
    (BinarySegmentation.mk (CostL2.new (List.replicate p a ++ List.replicate q b)).eval)
    (l2 (List.replicate p a ++ List.replicate q b)) 0 ((p : Int) + q)
    (hev 0 _ (le_refl _) (by omega) (le_refl _))
    (fun c hc1 hc2 => ⟨hev 0 c (le_refl _) (by omega) (by omega),
      hev c _ (by omega) (by omega) (le_refl _)⟩) (by omega)
  have hrp : r = (p : Int) := by
    have hle := hmin p (by omega) (by omega)
    rw [hL, hR] at hle
    rcases lt_trichotomy r (p : Int) with hlt | heq | hgt
    · have hpos := l2_step_cross p q a b r (by omega) hlt hq hab
      rw [l2_step_left p q a b 0 r (le_refl _) (by omega)] at hle
      linarith
    · exact heq
    · have hlt := hlow p (by omega) hgt
      rw [hL, hR] at hlt
      have hn1 := l2_nonneg (List.replicate p a ++ List.replicate q b) 0 r (le_refl _)
        (by rw [hlen]; omega)
      have hn2 := l2_nonneg (List.replicate p a ++ List.replicate q b) r ((p : Int) + q)
        (by omega) (by rw [hlen])
      linarith
  subst hrp
  rw [hL, hR] at hrun
  have hgain : l2 (List.replicate p a ++ List.replicate q b) 0 ((p : Int) + q) - (0 + 0)
      = l2 (List.replicate p a ++ List.replicate q b) 0 ((p : Int) + q) := by ring
  rw [hgain] at hrun
  refine ⟨_, BinarySegmentation.predict_of_predictWithGain hrun, hrun, ?_, ?_,
    hev 0 _ (le_refl _) (by omega) (le_refl _), hT⟩
  · rw [hev 0 p (le_refl _) (by omega) (by omega), hL]
  · rw [hev p _ (by omega) (by omega) (le_refl _), hR]

/-- Instance of C8: `x = [1, 1, 1, 5, 5, 5]` gives the changepoint `3` with gain `24`. -/
theorem predict_step_sequence_witness :
    (BinarySegmentation.mk (CostL2.new [1, 1, 1, 5, 5, 5]).eval).predictWithGain 0 6
      = .ok (3, Val.fin 24) ∧
    ∃ gain : ℚ,
      (BinarySegmentation.mk (CostL2.new (List.replicate 3 1 ++ List.replicate 3 5)).eval).predict
        0 (((3 : Nat) : Int) + (3 : Nat)) = .ok ((3 : Nat) : Int) ∧
      (BinarySegmentation.mk
        (CostL2.new (List.replicate 3 1 ++ List.replicate 3 5)).eval).predictWithGain
        0 (((3 : Nat) : Int) + (3 : Nat)) = .ok (((3 : Nat) : Int), Val.fin gain) ∧
      (CostL2.new (List.replicate 3 1 ++ List.replicate 3 5)).eval 0 (3 : Nat)
        = .ok (Val.fin 0) ∧
      (CostL2.new (List.replicate 3 1 ++ List.replicate 3 5)).eval (3 : Nat)
        (((3 : Nat) : Int) + (3 : Nat)) = .ok (Val.fin 0) ∧
      (CostL2.new (List.replicate 3 1 ++ List.replicate 3 5)).eval 0
        (((3 : Nat) : Int) + (3 : Nat)) = .ok (Val.fin gain) ∧
      0 < gain := by
  refine ⟨?_, predict_step_sequence 3 3 1 5 (by decide) (by decide) (by norm_num)⟩
  simp [BinarySegmentation.predictWithGain,
    BinarySegmentation.predictLoop, CostL2.new, CostL2.eval, CostL2.fillStep, vecRead,
    List.range, List.range.loop, Val.add, Val.lt, Val.sub]
  norm_num

/-! ## The sentinel and the external cost -/

/-- C12: `RCostClass::eval` hands `start` and `end`, unchanged and in this order, to the host
function and returns its outcome unchanged; hence the scan, `predict` and the printed gain
over an `RCostClass` built from `f` are those of the search run on `f` itself. -/
theorem rcost_eval_forwards (f : Int → Int → Except Fault Val) (start end_ : Int) :
    (RCostClass.mk f).eval start end_ = f start end_ ∧
    (BinarySegmentation.mk (RCostClass.mk f).eval).predict start end_
      = (BinarySegmentation.mk f).predict start end_ ∧
    (BinarySegmentation.mk (RCostClass.mk f).eval).predictWithGain start end_
      = (BinarySegmentation.mk f).predictWithGain start end_ := by
  have heval : (RCostClass.mk f).eval = f := by
    funext s e
    simp [RCostClass.eval]
  refine ⟨by rw [heval], by rw [heval], by rw [heval]⟩

/-! ## The vectors built by the constructor -/

/-- C13: for every sequence `x` of length `n`, the vectors `csum_` and `csum2_` built by the
constructor have length `n + 1`, start with `0`, and satisfy `csum_[i] = csum_[i-1] + x[i-1]`
and `csum2_[i] = csum2_[i-1] + x[i-1]^2` for `1 ≤ i ≤ n`, so that `csum_[i]` is the sum and
`csum2_[i]` the sum of the squares of the first `i` elements.  `eval`, a `const` method, is
a function of these vectors that returns a value only: it leaves them as they are. -/
theorem costL2_construction_invariant (x : List ℚ) :
    (CostL2.new x).csum_.length = x.length + 1 ∧
    (CostL2.new x).csum2_.length = x.length + 1 ∧
    (CostL2.new x).csum_[0]? = some 0 ∧
    (CostL2.new x).csum2_[0]? = some 0 ∧
    (∀ i, 1 ≤ i → i ≤ x.length →
      (CostL2.new x).csum_.getD i 0
        = (CostL2.new x).csum_.getD (i - 1) 0 + x.getD (i - 1) 0 ∧
      (CostL2.new x).csum2_.getD i 0
        = (CostL2.new x).csum2_.getD (i - 1) 0 + x.getD (i - 1) 0 ^ 2) ∧
    (∀ i, i ≤ x.length →
      (CostL2.new x).csum_.getD i 0 = (x.take i).sum ∧
      (CostL2.new x).csum2_.getD i 0 = ((x.take i).map (fun v => v ^ 2)).sum) := by
  have hsq : ∀ l : List ℚ, l.map (fun v => v ^ 2) = l.map (fun v => v * v) := by
    intro l
    apply List.map_congr_left
    intro v _
    ring
  have h0 : (CostL2.new x).csum_.getD 0 0 = 0 := by
    rw [CostL2.new_csum_getD x 0 (Nat.zero_le _)]; simp
  have h02 : (CostL2.new x).csum2_.getD 0 0 = 0 := by
    rw [CostL2.new_csum2_getD x 0 (Nat.zero_le _)]; simp
  refine ⟨CostL2.new_csum_length x, CostL2.new_csum2_length x, ?_, ?_, ?_, ?_⟩
  · have hlt : 0 < (CostL2.new x).csum_.length := by rw [CostL2.new_csum_length]; omega
    rw [List.getD_eq_getElem _ 0 hlt] at h0
    rw [List.getElem?_eq_getElem hlt, h0]
  · have hlt : 0 < (CostL2.new x).csum2_.length := by rw [CostL2.new_csum2_length]; omega
    rw [List.getD_eq_getElem _ 0 hlt] at h02
    rw [List.getElem?_eq_getElem hlt, h02]
  · intro i h1 hi
    obtain ⟨j, rfl⟩ : ∃ j, i = j + 1 := ⟨i - 1, by omega⟩
    rw [Nat.add_sub_cancel, CostL2.new_csum_getD x (j + 1) hi,
      CostL2.new_csum_getD x j (by omega), CostL2.new_csum2_getD x (j + 1) hi,
      CostL2.new_csum2_getD x j (by omega), CostL2.sum_take_succ_getD x j (by omega),
      CostL2.sum_sq_take_succ_getD x j (by omega)]
    exact ⟨rfl, by ring⟩
  · intro i hi
    rw [hsq]
    exact ⟨CostL2.new_csum_getD x i hi, CostL2.new_csum2_getD x i hi⟩

/-- Instance of C13: for `x = [1, 2, 3]` the constructor builds `csum_ = [0, 1, 3, 6]` and
`csum2_ = [0, 1, 5, 14]`. -/
theorem costL2_construction_invariant_witness :
    (CostL2.new [1, 2, 3]).csum_ = [0, 1, 3, 6] ∧
    (CostL2.new [1, 2, 3]).csum2_ = [0, 1, 5, 14] ∧
    (CostL2.new [1, 2, 3]).csum_.length = ([1, 2, 3] : List ℚ).length + 1 ∧
    (CostL2.new [1, 2, 3]).csum2_.length = ([1, 2, 3] : List ℚ).length + 1 := by
  refine ⟨?_, ?_, (costL2_construction_invariant [1, 2, 3]).1,
    (costL2_construction_invariant [1, 2, 3]).2.1⟩
  · simp [CostL2.new, CostL2.fillStep, List.range, List.range.loop]
    norm_num
  · simp [CostL2.new, CostL2.fillStep, List.range, List.range.loop]
    norm_num

/-! ## The L2 cost of a scaled and shifted sequence -/

theorem affine_length (k c : ℚ) (x : List ℚ) : (affine k c x).length = x.length := by
  simp [affine]

theorem sum_map_affine (k c : ℚ) (l : List ℚ) :
    (l.map (fun v => k * v + c)).sum = k * l.sum + (l.length : ℚ) * c := by
  induction l with
  | nil => simp
  | cons a t ih =>
    simp only [List.map_cons, List.sum_cons, List.length_cons, ih]
    push_cast
    ring

theorem sum_sq_map_affine (k c : ℚ) (l : List ℚ) :
    ((l.map (fun v => k * v + c)).map (fun v => v * v)).sum
      = k ^ 2 * (l.map (fun v => v * v)).sum + 2 * k * c * l.sum + (l.length : ℚ) * c ^ 2 := by
  induction l with
  | nil => simp
  | cons a t ih =>
    simp only [List.map_cons, List.sum_cons, List.length_cons, ih]
    push_cast
    ring

theorem take_length_cast (x : List ℚ) (i : Int) (h0 : 0 ≤ i) (hn : i ≤ (x.length : Int)) :
    (((x.take i.toNat).length : Nat) : ℚ) = (i : ℚ) := by
  have h1 : (x.take i.toNat).length = i.toNat := by
    rw [List.length_take]; omega
  have h2 : ((i.toNat : Nat) : Int) = i := Int.toNat_of_nonneg h0
  rw [h1]
  exact_mod_cast h2

theorem prefixSum_affine (k c : ℚ) (x : List ℚ) (i : Int) (h0 : 0 ≤ i)
    (hn : i ≤ (x.length : Int)) :
    prefixSum (affine k c x) i = k * prefixSum x i + (i : ℚ) * c := by
  rw [prefixSum, prefixSum, affine, ← List.map_take, sum_map_affine, take_length_cast x i h0 hn]

theorem prefixSumSq_affine (k c : ℚ) (x : List ℚ) (i : Int) (h0 : 0 ≤ i)
    (hn : i ≤ (x.length : Int)) :
    prefixSumSq (affine k c x) i
      = k ^ 2 * prefixSumSq x i + 2 * k * c * prefixSum x i + (i : ℚ) * c ^ 2 := by
  rw [prefixSumSq, prefixSumSq, prefixSum, affine, ← List.map_take, sum_sq_map_affine,
    take_length_cast x i h0 hn]

theorem l2_affine (k c : ℚ) (x : List ℚ) (s e : Int) (h0 : 0 ≤ s)
    (hn : e ≤ (x.length : Int)) :
    l2 (affine k c x) s e = k ^ 2 * l2 x s e := by
  by_cases hlen : e - s ≤ 0
  · rw [l2, l2, if_pos hlen, if_pos hlen]; ring
  · have hpos : ((e - s : Int) : ℚ) ≠ 0 := by
      have : e - s ≠ 0 := by omega
      exact_mod_cast this
    rw [l2, l2, if_neg hlen, if_neg hlen,
      prefixSum_affine k c x e (by omega) hn, prefixSum_affine k c x s h0 (by omega),
      prefixSumSq_affine k c x e (by omega) hn, prefixSumSq_affine k c x s h0 (by omega)]
    push_cast at hpos ⊢
    field_simp
    ring

theorem predict_l2_short (x : List ℚ) (start end_ : Int)
    (hdef : end_ ≤ start ∨ (0 ≤ start ∧ end_ ≤ (x.length : Int))) (h : end_ - start < 2) :
    (BinarySegmentation.mk (CostL2.new x).eval).predict start end_ = .ok (-1) := by
  by_cases hse : end_ ≤ start
  · exact BinarySegmentation.predict_of_predictWithGain
      (BinarySegmentation.predictWithGain_short (BinarySegmentation.mk (CostL2.new x).eval)
        start end_ (Val.fin 0) (CostL2.eval_nonpos _ start end_ hse) h)
  · exact BinarySegmentation.predict_of_predictWithGain
      (BinarySegmentation.predictWithGain_short (BinarySegmentation.mk (CostL2.new x).eval)
        start end_ (Val.fin (l2 x start end_))
        (CostL2.eval_new_in_range x start end_ (by omega) (by omega) (by omega)) h)

/-- C16: for every sequence `x`, constants `k` and `c`, and `0 ≤ start ≤ end ≤ n`,
`CostL2(k*x + c).eval(start, end) = k^2 * CostL2(x).eval(start, end)`; and for `k ≠ 0`,
`predict` over `CostL2(k*x + c)` returns the same changepoint as `predict` over `CostL2(x)`
on every interval on which the vectors are read within their bounds: those with
`end ≤ start`, and those with `0 ≤ start` and `end ≤ n`. -/
theorem costL2_affine_invariance (x : List ℚ) (k c : ℚ) :
    (∀ start end_ : Int, 0 ≤ start → start ≤ end_ → end_ ≤ (x.length : Int) →
      ∃ v, (CostL2.new x).eval start end_ = .ok (Val.fin v) ∧
        (CostL2.new (affine k c x)).eval start end_ = .ok (Val.fin (k ^ 2 * v))) ∧
    (k ≠ 0 → ∀ start end_ : Int, (end_ ≤ start ∨ (0 ≤ start ∧ end_ ≤ (x.length : Int))) →
      (BinarySegmentation.mk (CostL2.new (affine k c x)).eval).predict start end_
        = (BinarySegmentation.mk (CostL2.new x).eval).predict start end_) := by
  have hlen : (((affine k c x).length : Nat) : Int) = (x.length : Int) := by
    rw [affine_length]
  have hev : ∀ s e : Int, 0 ≤ s → s ≤ e → e ≤ (x.length : Int) →
      (CostL2.new x).eval s e = .ok (Val.fin (l2 x s e)) :=
    fun s e h1 h2 h3 => CostL2.eval_new_in_range x s e h1 h2 h3
  have heva : ∀ s e : Int, 0 ≤ s → s ≤ e → e ≤ (x.length : Int) →
      (CostL2.new (affine k c x)).eval s e = .ok (Val.fin (k ^ 2 * l2 x s e)) := by
    intro s e h1 h2 h3
    rw [CostL2.eval_new_in_range (affine k c x) s e h1 h2 (by rw [hlen]; exact h3),
      l2_affine k c x s e h1 h3]
  refine ⟨fun start end_ h1 h2 h3 => ⟨l2 x start end_, hev start end_ h1 h2 h3,
    heva start end_ h1 h2 h3⟩, ?_⟩
  intro hk start end_ hdef
  by_cases hshort : end_ - start < 2
  · rw [predict_l2_short x start end_ hdef hshort,
      predict_l2_short (affine k c x) start end_ (by rw [hlen]; exact hdef) hshort]
  · have hk2 : 0 < k ^ 2 := by positivity
    have h0 : 0 ≤ start := by omega
    have hn : end_ ≤ (x.length : Int) := by omega
    obtain ⟨r, hrun, hr1, hr2, hmin, hlow⟩ := BinarySegmentation.predictWithGain_finite
      (BinarySegmentation.mk (CostL2.new x).eval) (l2 x) start end_
      (hev start end_ h0 (by omega) hn)
      (fun cp hc1 hc2 => ⟨hev start cp h0 (by omega) (by omega),
        hev cp end_ (by omega) (by omega) hn⟩) (by omega)
    obtain ⟨ra, hruna, hra1, hra2, hmina, hlowa⟩ := BinarySegmentation.predictWithGain_finite
      (BinarySegmentation.mk (CostL2.new (affine k c x)).eval)
      (fun s e => k ^ 2 * l2 x s e) start end_
      (heva start end_ h0 (by omega) hn)
      (fun cp hc1 hc2 => ⟨heva start cp h0 (by omega) (by omega),
        heva cp end_ (by omega) (by omega) hn⟩) (by omega)
    rw [BinarySegmentation.predict_of_predictWithGain hrun,
      BinarySegmentation.predict_of_predictWithGain hruna]
    have heq : ra = r := by
      rcases lt_trichotomy ra r with hlt | heq | hgt
      · have h1 := hlow ra hra1 hlt
        have h2 := hmina r hr1 hr2
        simp only at h2
        nlinarith
      · exact heq
      · have h1 := hlowa r hr1 hgt
        have h2 := hmin ra hra1 hra2
        simp only at h1
        nlinarith
    rw [heq]

/-- Instance of C16: `x = [1, 2, 4]` with `k = -2` and `c = 3`, that is `[1, -1, -5]`:
`eval(0, 3)` is `14/3` for `x` and `4 * 14/3 = 56/3` for the image, and `predict(0, 3)`
returns `2` for both. -/
theorem costL2_affine_invariance_witness :
    affine (-2) 3 [1, 2, 4] = [1, -1, -5] ∧
    (CostL2.new [1, 2, 4]).eval 0 3 = .ok (Val.fin (14 / 3)) ∧
    (CostL2.new [1, -1, -5]).eval 0 3 = .ok (Val.fin (56 / 3)) ∧
    (BinarySegmentation.mk (CostL2.new [1, 2, 4]).eval).predict 0 3 = .ok 2 ∧
    (BinarySegmentation.mk (CostL2.new (affine (-2) 3 [1, 2, 4])).eval).predict 0 3
      = (BinarySegmentation.mk (CostL2.new [1, 2, 4]).eval).predict 0 3 := by
  refine ⟨?_, ?_, ?_, ?_,
    (costL2_affine_invariance [1, 2, 4] (-2) 3).2 (by norm_num) 0 3
      (Or.inr ⟨by decide, by decide⟩)⟩
  · simp [affine]
    norm_num
  · simp [CostL2.new, CostL2.eval, CostL2.fillStep, vecRead, List.range, List.range.loop]
    norm_num
  · simp [CostL2.new, CostL2.eval, CostL2.fillStep, vecRead, List.range, List.range.loop]
    norm_num
  · simp [BinarySegmentation.predict, BinarySegmentation.predictWithGain,
      BinarySegmentation.predictLoop, CostL2.new, CostL2.eval, CostL2.fillStep, vecRead,
      List.range, List.range.loop, Val.add, Val.lt]
    norm_num

/-! ## The result of `predict` for an arbitrary cost -/

theorem Val.lt_pinf_eq_false (v : Val) : v.lt Val.pinf = false ↔ (v = Val.nan ∨ v = Val.pinf) := by
  cases v <;> simp [Val.lt]

theorem predict_total_spec (b : BinarySegmentation) (g : Int → Int → Val)
    (hb : ∀ s e, b.cost_ s e = .ok (g s e)) (start end_ : Int) :
    ∃ m r, BinarySegmentation.predictLoop b.cost_ start end_ (start + 1) Val.pinf (-1)
        = .ok (m, r) ∧
      b.predict start end_ = .ok r ∧
      ((m = Val.pinf ∧ r = -1 ∧
          ∀ c, start < c → c < end_ →
            (BinarySegmentation.splitErr g start end_ c).lt Val.pinf = false) ∨
       (start < r ∧ r < end_ ∧ m = BinarySegmentation.splitErr g start end_ r ∧
          (BinarySegmentation.splitErr g start end_ r).lt Val.pinf = true ∧
          (∀ c, start < c → c < r →
            BinarySegmentation.splitErr g start end_ c = Val.nan ∨
            (BinarySegmentation.splitErr g start end_ r).lt
              (BinarySegmentation.splitErr g start end_ c) = true) ∧
          (∀ c, r < c → c < end_ →
            (BinarySegmentation.splitErr g start end_ c).lt
              (BinarySegmentation.splitErr g start end_ r) = false))) := by
  obtain ⟨m, r, hrun, hpost⟩ := BinarySegmentation.predictLoop_spec b.cost_ start end_
    (BinarySegmentation.splitErr g start end_)
    (fun c _ _ => ⟨g start c, g c end_, hb start c, hb c end_, rfl⟩)
    _ (start + 1) Val.pinf (-1) (by omega) rfl
  refine ⟨m, r, hrun, ?_, ?_⟩
  · simp [BinarySegmentation.predict, BinarySegmentation.predictWithGain, hb start end_, hrun]
  · rcases hpost with ⟨hm, hr, hnone⟩ | ⟨h1, h2, hm, hlt, hbefore, hafter⟩
    · exact Or.inl ⟨hm, hr, fun c hc1 hc2 => hnone c (by omega) hc2⟩
    · exact Or.inr ⟨by omega, h2, hm, hlt, fun c hc1 hc2 => hbefore c (by omega) hc2, hafter⟩

theorem splitErr_minusOneFun (start end_ c : Int) (hs : start < -1) (he : -1 < end_)
    (hc1 : start < c) (hc2 : c < end_) :
    BinarySegmentation.splitErr minusOneFun start end_ c
      = if c = -1 then Val.fin 0 else Val.fin 2 := by
  by_cases hc : c = -1
  · subst hc
    simp [BinarySegmentation.splitErr, minusOneFun, Val.add]
  · have h1 : ¬ (start = -1 ∨ c = -1) := by omega
    have h2 : ¬ (c = -1 ∨ end_ = -1) := by omega
    simp only [BinarySegmentation.splitErr, minusOneFun, if_neg h1, if_neg h2, if_neg hc, Val.add]
    norm_num

theorem Val.lt_irrefl_val (v : Val) : v.lt v = false := by
  cases v <;> simp [Val.lt]

theorem Val.lt_asymm_val {a b : Val} (h : a.lt b = true) : b.lt a = false := by
  cases a <;> cases b <;> simp_all [Val.lt]
  exact le_of_lt h

/-- C14: for a cost model whose calls return any values (NaN and the infinities included) and
all `start`, `end`, `predict` returns either `-1` or an index `r` with `start < r < end`.
When `start ≥ -1`, a result `-1` means that no candidate was selected: the scan ends with
`minErr = +∞` and `bestCp = -1` untouched, no split cost being below `+∞`.  When
`start < -1 < end` the sentinel is also a candidate: the result is `-1` both for a cost whose
scan selects the candidate `-1` (ending with `minErr = 0`) and for a cost whose scan selects
nothing. -/
theorem predict_result_range (b : BinarySegmentation) (g : Int → Int → Val)
    (hb : ∀ s e, b.cost_ s e = .ok (g s e)) (start end_ : Int) :
    (∃ r, b.predict start end_ = .ok r ∧ (r = -1 ∨ (start < r ∧ r < end_))) ∧
    (start ≥ -1 → b.predict start end_ = .ok (-1) →
      BinarySegmentation.predictLoop b.cost_ start end_ (start + 1) Val.pinf (-1)
        = .ok (Val.pinf, -1) ∧
      ∀ c, start < c → c < end_ →
        (BinarySegmentation.splitErr g start end_ c).lt Val.pinf = false) ∧
    (start < -1 → -1 < end_ →
      (BinarySegmentation.mk (RCostClass.mk (fun s e => .ok (minusOneFun s e))).eval).predict
        start end_ = .ok (-1) ∧
      BinarySegmentation.predictLoop (RCostClass.mk (fun s e => .ok (minusOneFun s e))).eval
        start end_ (start + 1) Val.pinf (-1) = .ok (Val.fin 0, -1) ∧
      (BinarySegmentation.mk (RCostClass.mk (fun s e => .ok (nanFun s e))).eval).predict
        start end_ = .ok (-1) ∧
      BinarySegmentation.predictLoop (RCostClass.mk (fun s e => .ok (nanFun s e))).eval
        start end_ (start + 1) Val.pinf (-1) = .ok (Val.pinf, -1)) := by
  refine ⟨?_, ?_, ?_⟩
  · obtain ⟨m, r, _, hret, hpost⟩ := predict_total_spec b g hb start end_
    refine ⟨r, hret, ?_⟩
    rcases hpost with ⟨_, hr, _⟩ | ⟨h1, h2, _⟩
    · exact Or.inl hr
    · exact Or.inr ⟨h1, h2⟩
  · intro hs hret
    obtain ⟨m, r, hrun, hret', hpost⟩ := predict_total_spec b g hb start end_
    rw [hret] at hret'
    injection hret' with hr
    subst hr
    rcases hpost with ⟨hm, _, hnone⟩ | ⟨h1, _⟩
    · rw [hrun, hm]
      exact ⟨rfl, hnone⟩
    · omega
  · intro hs he
    have hsel :
        (BinarySegmentation.mk (RCostClass.mk (fun s e => .ok (minusOneFun s e))).eval).predict
          start end_ = .ok (-1) ∧
        BinarySegmentation.predictLoop (RCostClass.mk (fun s e => .ok (minusOneFun s e))).eval
          start end_ (start + 1) Val.pinf (-1) = .ok (Val.fin 0, -1) := by
      obtain ⟨m, r, hrun, hret, hpost⟩ := predict_total_spec
        (BinarySegmentation.mk (RCostClass.mk (fun s e => .ok (minusOneFun s e))).eval)
        minusOneFun (fun _ _ => rfl) start end_
      have hE1 := splitErr_minusOneFun start end_ (-1) hs he hs he
      rw [if_pos rfl] at hE1
      rcases hpost with ⟨_, _, hnone⟩ | ⟨h1, h2, hm, _, hbefore, hafter⟩
      · have := hnone (-1) hs he
        rw [hE1] at this
        simp [Val.lt] at this
      · have hEr := splitErr_minusOneFun start end_ r hs he h1 h2
        have hr : r = -1 := by
          by_contra hne
          rw [if_neg hne] at hEr
          rcases lt_or_gt_of_ne hne with hlt | hgt
          · have := hafter (-1) hlt he
            rw [hE1, hEr] at this
            simp [Val.lt] at this
          · have := hbefore (-1) hs hgt
            rw [hE1, hEr] at this
            rcases this with h | h
            · cases h
            · norm_num [Val.lt] at h
        subst hr
        rw [hE1] at hm
        subst hm
        exact ⟨hret, hrun⟩
    have hnone :
        (BinarySegmentation.mk (RCostClass.mk (fun s e => .ok (nanFun s e))).eval).predict
          start end_ = .ok (-1) ∧
        BinarySegmentation.predictLoop (RCostClass.mk (fun s e => .ok (nanFun s e))).eval
          start end_ (start + 1) Val.pinf (-1) = .ok (Val.pinf, -1) := by
      obtain ⟨m, r, hrun, hret, hpost⟩ := predict_total_spec
        (BinarySegmentation.mk (RCostClass.mk (fun s e => .ok (nanFun s e))).eval)
        nanFun (fun _ _ => rfl) start end_
      rcases hpost with ⟨hm, hr, _⟩ | ⟨_, _, _, hlt, _⟩
      · subst hm hr
        exact ⟨hret, hrun⟩
      · simp [BinarySegmentation.splitErr, nanFun, Val.add, Val.lt] at hlt
    exact ⟨hsel.1, hsel.2, hnone.1, hnone.2⟩

/-- Instance of C14: the cost `minusOneFun` on the interval `(-3, 1)`, whose candidates are
`-2`, `-1` and `0`: the scan selects the candidate `-1`, and `predict` returns `-1`. -/
theorem predict_result_range_witness :
    (BinarySegmentation.mk (RCostClass.mk (fun s e => .ok (minusOneFun s e))).eval).predict
        (-3) 1 = .ok (-1) ∧
    BinarySegmentation.predictLoop (RCostClass.mk (fun s e => .ok (minusOneFun s e))).eval
        (-3) 1 (-3 + 1) Val.pinf (-1) = .ok (Val.fin 0, -1) :=
  ⟨((predict_result_range
      (BinarySegmentation.mk (RCostClass.mk (fun s e => .ok (minusOneFun s e))).eval)
      minusOneFun (fun _ _ => rfl) (-3) 1).2.2 (by decide) (by decide)).1,
   ((predict_result_range
      (BinarySegmentation.mk (RCostClass.mk (fun s e => .ok (minusOneFun s e))).eval)
      minusOneFun (fun _ _ => rfl) (-3) 1).2.2 (by decide) (by decide)).2.1⟩

/-- C15, refuted as stated: with a host function that returns NaN everywhere, on the interval
`(-3, 1)` the index `-1` is a candidate whose split cost is NaN, and `predict` returns `-1`
(every candidate being NaN, nothing is selected and the sentinel is returned). -/
theorem predict_returns_nan_candidate :
    (-3 : Int) < -1 ∧ (-1 : Int) < 1 ∧
    BinarySegmentation.splitErr nanFun (-3) 1 (-1) = Val.nan ∧
    (BinarySegmentation.mk (RCostClass.mk (fun s e => .ok (nanFun s e))).eval).predict (-3) 1
      = .ok (-1) := by
  refine ⟨by decide, by decide, ?_, ?_⟩
  · simp [BinarySegmentation.splitErr, nanFun, Val.add]
  · simp [BinarySegmentation.predict, BinarySegmentation.predictWithGain,
      BinarySegmentation.predictLoop, RCostClass.eval, nanFun, Val.add, Val.lt]

/-- C15, amended: for a cost model whose calls return any values, `predict` returns
normally, and a candidate other than `-1` whose split cost is NaN or `+∞` is never returned;
when some candidate has a split cost below `+∞`, the result is the lowest-index minimiser
among the candidates with a split cost below `+∞`; when every candidate has a split cost
that is NaN or `+∞`, the result is `-1`. -/
theorem predict_skips_non_finite (b : BinarySegmentation) (g : Int → Int → Val)
    (hb : ∀ s e, b.cost_ s e = .ok (g s e)) (start end_ : Int) :
    ∃ r, b.predict start end_ = .ok r ∧
      (∀ cp, start < cp → cp < end_ →
        (BinarySegmentation.splitErr g start end_ cp = Val.nan ∨
          BinarySegmentation.splitErr g start end_ cp = Val.pinf) →
        cp ≠ -1 → r ≠ cp) ∧
      ((∃ c, start < c ∧ c < end_ ∧
          (BinarySegmentation.splitErr g start end_ c).lt Val.pinf = true) →
        start < r ∧ r < end_ ∧
        (BinarySegmentation.splitErr g start end_ r).lt Val.pinf = true ∧
        (∀ c, start < c → c < end_ →
          (BinarySegmentation.splitErr g start end_ c).lt Val.pinf = true →
          (BinarySegmentation.splitErr g start end_ c).lt
            (BinarySegmentation.splitErr g start end_ r) = false) ∧
        (∀ c, start < c → c < r →
          (BinarySegmentation.splitErr g start end_ c).lt Val.pinf = true →
          (BinarySegmentation.splitErr g start end_ r).lt
            (BinarySegmentation.splitErr g start end_ c) = true)) ∧
      ((∀ c, start < c → c < end_ →
          (BinarySegmentation.splitErr g start end_ c = Val.nan ∨
            BinarySegmentation.splitErr g start end_ c = Val.pinf)) →
        r = -1) := by
  obtain ⟨m, r, _, hret, hpost⟩ := predict_total_spec b g hb start end_
  refine ⟨r, hret, ?_⟩
  rcases hpost with ⟨_, hr, hnone⟩ | ⟨h1, h2, _, hlt, hbefore, hafter⟩
  · refine ⟨?_, ?_, fun _ => hr⟩
    · intro cp _ _ _ hne
      rw [hr]
      exact fun h => hne h.symm
    · rintro ⟨c, hc1, hc2, hc⟩
      rw [hnone c hc1 hc2] at hc
      cases hc
  · refine ⟨?_, ?_, ?_⟩
    · intro cp _ _ hcp _ heq
      subst heq
      rw [(Val.lt_pinf_eq_false _).mpr hcp] at hlt
      cases hlt
    · intro _
      refine ⟨h1, h2, hlt, ?_, ?_⟩
      · intro c hc1 hc2 hc
        rcases lt_trichotomy c r with hcr | hcr | hcr
        · rcases hbefore c hc1 hcr with hnan | hless
          · rw [hnan] at hc
            simp [Val.lt] at hc
          · exact Val.lt_asymm_val hless
        · subst hcr
          exact Val.lt_irrefl_val _
        · exact hafter c hcr hc2
      · intro c hc1 hcr hc
        rcases hbefore c hc1 hcr with hnan | hless
        · rw [hnan] at hc
          simp [Val.lt] at hc
        · exact hless
    · intro hall
      rw [(Val.lt_pinf_eq_false _).mpr (hall r h1 h2)] at hlt
      cases hlt

/-- Instance of amended C15: the host function `nanAt24` on the interval `(2, 5)`, whose
candidates are `3` and `4`: the candidate `4`, whose split cost is NaN, is not returned. -/
theorem predict_skips_non_finite_witness :
    BinarySegmentation.splitErr nanAt24 2 5 4 = Val.nan ∧
    ∃ r, (BinarySegmentation.mk (RCostClass.mk (fun s e => .ok (nanAt24 s e))).eval).predict 2 5
        = .ok r ∧ r ≠ 4 := by
  have hnan : BinarySegmentation.splitErr nanAt24 2 5 4 = Val.nan := by
    simp [BinarySegmentation.splitErr, nanAt24, Val.add]
  obtain ⟨r, hret, hskip, _, _⟩ := predict_skips_non_finite
    (BinarySegmentation.mk (RCostClass.mk (fun s e => .ok (nanAt24 s e))).eval) nanAt24
    (fun _ _ => rfl) 2 5
  exact ⟨hnan, r, hret, hskip 4 (by decide) (by decide) (Or.inl hnan) (by decide)⟩

/-! ## The accessors of the animal classes -/

/-- C17: for every name and age, `Duck(name, age)` has `type() = "duck"`, `Dog(name, age)` has
`type() = "dog"`, and both have `name() = name` and `age() = age`; an `RAnimal` built from
three callbacks returns the results of the callbacks from `type()`, `name()` and `age()`,
whatever its base fields hold, which the constructor sets to `""`, `""` and `0`. -/
theorem animal_accessors (name : String) (age : Int)
    (type_fun name_fun : Unit → Except Fault String) (age_fun : Unit → Except Fault Int) :
    ((Duck.new name age).toAnimal.type = "duck" ∧
      (Duck.new name age).toAnimal.name = name ∧
      (Duck.new name age).toAnimal.age = age) ∧
    ((Dog.new name age).toAnimal.type = "dog" ∧
      (Dog.new name age).toAnimal.name = name ∧
      (Dog.new name age).toAnimal.age = age) ∧
    ((RAnimal.new type_fun name_fun age_fun).type = type_fun () ∧
      (RAnimal.new type_fun name_fun age_fun).name = name_fun () ∧
      (RAnimal.new type_fun name_fun age_fun).age = age_fun ()) ∧
    (RAnimal.new type_fun name_fun age_fun).toAnimal = Animal.mk "" "" 0 ∧
    (∀ base : Animal,
      (RAnimal.mk base type_fun name_fun age_fun).type = type_fun () ∧
      (RAnimal.mk base type_fun name_fun age_fun).name = name_fun () ∧
      (RAnimal.mk base type_fun name_fun age_fun).age = age_fun ()) := by
  refine ⟨⟨rfl, rfl, rfl⟩, ⟨rfl, rfl, rfl⟩, ⟨rfl, rfl, rfl⟩, rfl, ?_⟩
  intro base
  exact ⟨rfl, rfl, rfl⟩

/-- Instance of C17: a duck and a dog, and an `RAnimal` whose callbacks return `"cat"`,
`"Tom"` and `3`: its accessors return these values, not `""`, `""` and `0`. -/
theorem animal_accessors_witness :
    (Duck.new "Donald" 5).toAnimal.type = "duck" ∧
    (Dog.new "Rex" 7).toAnimal.type = "dog" ∧
    (RAnimal.new (fun _ => .ok "cat") (fun _ => .ok "Tom") (fun _ => .ok 3)).type = .ok "cat" ∧
    (RAnimal.new (fun _ => .ok "cat") (fun _ => .ok "Tom") (fun _ => .ok 3)).name = .ok "Tom" ∧
    (RAnimal.new (fun _ => .ok "cat") (fun _ => .ok "Tom") (fun _ => .ok 3)).age = .ok 3 :=
  ⟨(animal_accessors "Donald" 5 (fun _ => .ok "cat") (fun _ => .ok "Tom") (fun _ => .ok 3)).1.1,
   (animal_accessors "Rex" 7 (fun _ => .ok "cat") (fun _ => .ok "Tom") (fun _ => .ok 3)).2.1.1,
   (animal_accessors "Rex" 7 (fun _ => .ok "cat") (fun _ => .ok "Tom")
      (fun _ => .ok 3)).2.2.1.1,
   (animal_accessors "Rex" 7 (fun _ => .ok "cat") (fun _ => .ok "Tom")
      (fun _ => .ok 3)).2.2.1.2.1,
   (animal_accessors "Rex" 7 (fun _ => .ok "cat") (fun _ => .ok "Tom")
      (fun _ => .ok 3)).2.2.1.2.2⟩

end BinSeg
